import Mathlib

/-!
Shallow embedding of the ray tracer in `src/main.py`.

The Python code computes with `glm.vec3` floating-point vectors; the
embedding idealises that arithmetic over the real numbers, with
`Real.sqrt` standing for `math.sqrt` / the square root inside
`glm.length` and `glm.normalize`.  Each Lean definition mirrors the
Python function of the same name line by line.

Python object identity (`Hit.object == closest_hit.object` in
`Scene.trace` compares references, since `Sphere` defines no `__eq__`)
is modelled by an `oid : Nat` field on `Sphere`: distinct Python
objects have distinct ids, and the comparison used in `trace` is
`sameObject`, which compares only the ids.
-/

/-- Three-component real vector, the model of `glm.vec3`. -/
structure Vec3 where
  x : ℝ
  y : ℝ
  z : ℝ

namespace Vec3

/-- Componentwise addition, `glm.vec3.__add__`. -/
def add (a b : Vec3) : Vec3 := ⟨a.x + b.x, a.y + b.y, a.z + b.z⟩

/-- Componentwise subtraction, `glm.vec3.__sub__`. -/
def sub (a b : Vec3) : Vec3 := ⟨a.x - b.x, a.y - b.y, a.z - b.z⟩

/-- Scalar multiplication, `glm.vec3.__mul__` with a scalar. -/
def smul (t : ℝ) (a : Vec3) : Vec3 := ⟨t * a.x, t * a.y, t * a.z⟩

instance : Add Vec3 := ⟨add⟩

instance : Sub Vec3 := ⟨sub⟩

/-- Dot product, `glm.dot`. -/
def dot (a b : Vec3) : ℝ := a.x * b.x + a.y * b.y + a.z * b.z

/-- Euclidean length, `glm.length`. -/
noncomputable def length (a : Vec3) : ℝ := Real.sqrt (dot a a)

/-- Normalisation, `glm.normalize`: divide by the length.  (On the
zero vector glm is undefined; real division by zero yields `0` here,
so `normalize 0 = 0` in the model.) -/
noncomputable def normalize (a : Vec3) : Vec3 := smul (1 / length a) a

end Vec3

/-- A ray, `class Ray`: an origin and a direction.  The Python
constructor normalizes the direction; `Ray.make` below models the
constructor, and the bare structure models an already-built object. -/
structure Ray where
  origin : Vec3
  direction : Vec3

/-- Model of `Ray.__init__`: stores the origin and the normalized direction. -/
noncomputable def Ray.make (origin direction : Vec3) : Ray :=
  ⟨origin, direction.normalize⟩

/-- Model of `Ray.at`: the point `origin + t*direction`.  (`at` is a Lean
keyword, hence the primed name.) -/
def Ray.at' (r : Ray) (t : ℝ) : Vec3 := r.origin + Vec3.smul t r.direction

/-- A camera, `class Camera`, after `__init__` has run: the basis
vectors `right`, `up`, `front` are stored fields (derived once from
the Euler angles).  The claims under verification concern `get_ray`,
which reads only these stored fields. -/
structure Camera where
  center : Vec3
  width : ℝ
  height : ℝ
  focal_length : ℝ
  right : Vec3
  up : Vec3
  front : Vec3

/-- Model of `Camera.get_ray(j, i)`: accumulates the direction exactly as the
three `+=` statements do, then builds a `Ray` (whose constructor
normalizes). -/
noncomputable def Camera.get_ray (c : Camera) (j i : ℝ) : Ray :=
  let direction := Vec3.smul c.focal_length c.front
  let direction := direction + Vec3.smul (j / c.width - 0.5) c.right
  let direction :=
    direction + Vec3.smul (i / c.height - 0.5) (Vec3.smul (c.height / c.width) c.up)
  Ray.make c.center direction

/-- A sphere, `class Sphere`.  The extra `oid` field models Python
object identity (the address of the object); geometry and color are
the stored fields of the Python class. -/
structure Sphere where
  oid : ℕ
  center : Vec3
  radius : ℝ
  color : Vec3

/-- The Python `==` between two `Sphere` objects: default object
identity, modelled as id equality. -/
def sameObject (a b : Sphere) : Bool := a.oid == b.oid

/-- A hit record, `class Hit`. -/
structure Hit where
  object : Sphere
  position : Vec3
  normal : Vec3
  distance : ℝ

namespace Sphere

/-- The quadratic coefficient `a = dot(ray.direction, ray.direction)`
of `Sphere.intersect`. -/
def qa (_ : Sphere) (ray : Ray) : ℝ := Vec3.dot ray.direction ray.direction

/-- The quadratic coefficient `b = 2*dot(ray.direction, origin-center)`
of `Sphere.intersect`. -/
def qb (s : Sphere) (ray : Ray) : ℝ :=
  2 * Vec3.dot ray.direction (ray.origin - s.center)

/-- The quadratic coefficient `c = dot(o-c, o-c) - radius**2` of
`Sphere.intersect`. -/
def qc (s : Sphere) (ray : Ray) : ℝ :=
  Vec3.dot (ray.origin - s.center) (ray.origin - s.center) - s.radius ^ 2

/-- The discriminant `delta = b**2 - 4*a*c` of `Sphere.intersect`. -/
def delta (s : Sphere) (ray : Ray) : ℝ :=
  s.qb ray ^ 2 - 4 * s.qa ray * s.qc ray

/-- The root `bhaskara(sqrt_delta) = (-b + sqrt(delta)) / (2*a)`. -/
noncomputable def root1 (s : Sphere) (ray : Ray) : ℝ :=
  (-s.qb ray + Real.sqrt (s.delta ray)) / (2 * s.qa ray)

/-- The root `bhaskara(-sqrt_delta) = (-b - sqrt(delta)) / (2*a)`. -/
noncomputable def root2 (s : Sphere) (ray : Ray) : ℝ :=
  (-s.qb ray - Real.sqrt (s.delta ray)) / (2 * s.qa ray)

/-- Model of `Sphere.intersect(ray)`: solve the quadratic; with a strictly
positive discriminant, keep the strictly positive roots, and if any
remain take the smallest as the hit distance (Python `min` of the
list of positive solutions).  Otherwise return no hit. -/
noncomputable def intersect (s : Sphere) (ray : Ray) : Option Hit :=
  if 0 < s.delta ray then
    match ([s.root1 ray, s.root2 ray].filter fun t => decide (0 < t)) with
    | [] => none
    | t :: ts =>
      let distance := ts.foldl min t
      let hitPoint := ray.at' distance
      let normal := Vec3.normalize (hitPoint - s.center)
      some ⟨s, hitPoint, normal, distance⟩
  else none

end Sphere

/-- A point light, `class PointLight`. -/
structure PointLight where
  position : Vec3
  intensity : ℝ

namespace PointLight

/-- The incidence cosine computed inside `intensity_at`:
`dot(normalize(light.position - hit.position), hit.normal)`. -/
noncomputable def cosTheta (l : PointLight) (h : Hit) : ℝ :=
  Vec3.dot (Vec3.normalize (l.position - h.position)) h.normal

/-- The light-to-hit distance computed inside `intensity_at`:
`glm.length(light.position - hit.position)`. -/
noncomputable def lightDist (l : PointLight) (h : Hit) : ℝ :=
  Vec3.length (l.position - h.position)

/-- Model of `PointLight.intensity_at(hit)`:
`max(0, intensity*cos_theta/distance**2)`. -/
noncomputable def intensity_at (l : PointLight) (h : Hit) : ℝ :=
  max 0 (l.intensity * l.cosTheta h / l.lightDist h ^ 2)

end PointLight

/-- A scene, `class Scene`: background color, ambient light scalar,
the ordered object and light collections. -/
structure Scene where
  background : Vec3
  ambient_light : ℝ
  objects : List Sphere
  lights : List PointLight

namespace Scene

/-- The loop body accumulator of `Scene.closest`: starting from
`closest_hit`, fold over the remaining objects, replacing the current
hit exactly when a new hit exists and is strictly closer
(`if hit and (not closest_hit or hit.distance < closest_hit.distance)`). -/
noncomputable def closestAux (ray : Ray) : Option Hit → List Sphere → Option Hit
  | closestHit, [] => closestHit
  | closestHit, object :: rest =>
    closestAux ray
      (match object.intersect ray, closestHit with
       | some hit, none => some hit
       | some hit, some ch =>
         if hit.distance < ch.distance then some hit else some ch
       | none, _ => closestHit) rest

/-- Model of `Scene.closest(ray)`: linear scan over `self.objects` starting
from `closest_hit = None`. -/
noncomputable def closest (sc : Scene) (ray : Ray) : Option Hit :=
  closestAux ray none sc.objects

/-- The body of the `for light in self.lights` loop of `Scene.trace`:
one iteration updating the accumulated `intensity` for one light —
build the shadow ray from the light position toward the hit position,
find its closest hit, and add `intensity_at` exactly when that hit
exists and is the same object. -/
noncomputable def traceStep (sc : Scene) (closestHit : Hit)
    (intensity : ℝ) (light : PointLight) : ℝ :=
  let lightRay := Ray.make light.position (closestHit.position - light.position)
  match sc.closest lightRay with
  | some lightHit =>
    if sameObject lightHit.object closestHit.object then
      intensity + light.intensity_at closestHit
    else intensity
  | none => intensity

/-- Model of `Scene.trace(ray)`: find the closest hit; if none, the background;
otherwise accumulate `intensity` starting from `ambient_light` over
the lights (one `traceStep` per light), and return
`closest_hit.object.color * min(intensity, 1)`. -/
noncomputable def trace (sc : Scene) (ray : Ray) : Vec3 :=
  match sc.closest ray with
  | none => sc.background
  | some closestHit =>
    let intensity := sc.lights.foldl (sc.traceStep closestHit) sc.ambient_light
    Vec3.smul (min intensity 1) closestHit.object.color

/-- The contribution of one light to the intensity accumulated by
`Scene.trace` at hit `closestHit`: `intensity_at` when the closest hit
along the shadow ray (origin `light.position`, direction
`closestHit.position - light.position`) exists and is the same object
by identity, else `0`. -/
noncomputable def shadowContrib (sc : Scene) (closestHit : Hit)
    (light : PointLight) : ℝ :=
  match sc.closest (Ray.make light.position (closestHit.position - light.position)) with
  | some lightHit =>
    if sameObject lightHit.object closestHit.object then
      light.intensity_at closestHit
    else 0
  | none => 0

end Scene

namespace Sphere

lemma intersect_of_delta_nonpos (s : Sphere) (ray : Ray)
    (h : ¬ 0 < s.delta ray) : s.intersect ray = none := by
  simp [intersect, h]

lemma intersect_of_pos_pos (s : Sphere) (ray : Ray)
    (hδ : 0 < s.delta ray) (h1 : 0 < s.root1 ray) (h2 : 0 < s.root2 ray) :
    s.intersect ray =
      some ⟨s, ray.at' (min (s.root1 ray) (s.root2 ray)),
        Vec3.normalize (ray.at' (min (s.root1 ray) (s.root2 ray)) - s.center),
        min (s.root1 ray) (s.root2 ray)⟩ := by
  simp [intersect, hδ, List.filter, h1, h2]

lemma intersect_of_pos_nonpos (s : Sphere) (ray : Ray)
    (hδ : 0 < s.delta ray) (h1 : 0 < s.root1 ray) (h2 : ¬ 0 < s.root2 ray) :
    s.intersect ray =
      some ⟨s, ray.at' (s.root1 ray),
        Vec3.normalize (ray.at' (s.root1 ray) - s.center), s.root1 ray⟩ := by
  simp [intersect, hδ, List.filter, h1, h2]

lemma intersect_of_nonpos_pos (s : Sphere) (ray : Ray)
    (hδ : 0 < s.delta ray) (h1 : ¬ 0 < s.root1 ray) (h2 : 0 < s.root2 ray) :
    s.intersect ray =
      some ⟨s, ray.at' (s.root2 ray),
        Vec3.normalize (ray.at' (s.root2 ray) - s.center), s.root2 ray⟩ := by
  simp [intersect, hδ, List.filter, h1, h2]

lemma intersect_of_nonpos_nonpos (s : Sphere) (ray : Ray)
    (hδ : 0 < s.delta ray) (h1 : ¬ 0 < s.root1 ray) (h2 : ¬ 0 < s.root2 ray) :
    s.intersect ray = none := by
  simp [intersect, hδ, List.filter, h1, h2]

end Sphere

/-- Claim C3: `Sphere.intersect` returns no hit exactly when the
discriminant `b² - 4ac` is not strictly positive (tangency, with the
discriminant exactly `0`, is a miss) or when neither root of the
quadratic is strictly positive; in every other case it returns a hit. -/
theorem Sphere.intersect_none_iff (s : Sphere) (ray : Ray) :
    s.intersect ray = none ↔
      s.delta ray ≤ 0 ∨ (s.root1 ray ≤ 0 ∧ s.root2 ray ≤ 0) := by
  by_cases hδ : 0 < s.delta ray
  · by_cases h1 : 0 < s.root1 ray
    · by_cases h2 : 0 < s.root2 ray
      · rw [s.intersect_of_pos_pos ray hδ h1 h2]
        refine iff_of_false (by simp) ?_
        rintro (h | ⟨ha, _⟩)
        · exact absurd hδ (not_lt.mpr h)
        · exact absurd h1 (not_lt.mpr ha)
      · rw [s.intersect_of_pos_nonpos ray hδ h1 h2]
        refine iff_of_false (by simp) ?_
        rintro (h | ⟨ha, _⟩)
        · exact absurd hδ (not_lt.mpr h)
        · exact absurd h1 (not_lt.mpr ha)
    · by_cases h2 : 0 < s.root2 ray
      · rw [s.intersect_of_nonpos_pos ray hδ h1 h2]
        refine iff_of_false (by simp) ?_
        rintro (h | ⟨_, hb⟩)
        · exact absurd hδ (not_lt.mpr h)
        · exact absurd h2 (not_lt.mpr hb)
      · rw [s.intersect_of_nonpos_nonpos ray hδ h1 h2]
        exact iff_of_true rfl (Or.inr ⟨not_lt.mp h1, not_lt.mp h2⟩)
  · rw [s.intersect_of_delta_nonpos ray hδ]
    exact iff_of_true rfl (Or.inl (not_lt.mp hδ))

lemma Vec3.add_def (a b : Vec3) :
    a + b = ⟨a.x + b.x, a.y + b.y, a.z + b.z⟩ := rfl

lemma Vec3.sub_def (a b : Vec3) :
    a - b = ⟨a.x - b.x, a.y - b.y, a.z - b.z⟩ := rfl

/-- Claim C4: when `Sphere.intersect` returns a hit, the hit distance
is the smaller strictly positive root of the quadratic (so it is
positive, equals one of the two roots, and is bounded by every
strictly positive root), the position is `ray.at` of that distance,
and the normal is `normalize(position - center)`. -/
theorem Sphere.intersect_hit_spec (s : Sphere) (ray : Ray) (h : Hit)
    (hh : s.intersect ray = some h) :
    0 < h.distance ∧
    (h.distance = s.root1 ray ∨ h.distance = s.root2 ray) ∧
    (0 < s.root1 ray → h.distance ≤ s.root1 ray) ∧
    (0 < s.root2 ray → h.distance ≤ s.root2 ray) ∧
    h.position = ray.at' h.distance ∧
    h.normal = Vec3.normalize (h.position - s.center) := by
  by_cases hδ : 0 < s.delta ray
  · by_cases h1 : 0 < s.root1 ray
    · by_cases h2 : 0 < s.root2 ray
      · rw [s.intersect_of_pos_pos ray hδ h1 h2] at hh
        obtain rfl := Option.some.inj hh.symm
        refine ⟨lt_min h1 h2, ?_, fun _ => min_le_left _ _,
          fun _ => min_le_right _ _, rfl, rfl⟩
        rcases le_total (s.root1 ray) (s.root2 ray) with hle | hle
        · exact Or.inl (min_eq_left hle)
        · exact Or.inr (min_eq_right hle)
      · rw [s.intersect_of_pos_nonpos ray hδ h1 h2] at hh
        obtain rfl := Option.some.inj hh.symm
        exact ⟨h1, Or.inl rfl, fun _ => le_refl _,
          fun hc => absurd hc h2, rfl, rfl⟩
    · by_cases h2 : 0 < s.root2 ray
      · rw [s.intersect_of_nonpos_pos ray hδ h1 h2] at hh
        obtain rfl := Option.some.inj hh.symm
        exact ⟨h2, Or.inr rfl, fun hc => absurd hc h1,
          fun _ => le_refl _, rfl, rfl⟩
      · rw [s.intersect_of_nonpos_nonpos ray hδ h1 h2] at hh
        exact absurd hh (by simp)
  · rw [s.intersect_of_delta_nonpos ray hδ] at hh
    exact absurd hh (by simp)

/-- The unit sphere at the origin, a concrete test object. -/
def sUnit : Sphere := ⟨0, ⟨0, 0, 0⟩, 1, ⟨1, 1, 1⟩⟩

/-- A concrete ray on the z axis starting at `(0,0,-2)`. -/
def rayZ : Ray := ⟨⟨0, 0, -2⟩, ⟨0, 0, 1⟩⟩

lemma sqrt_four : Real.sqrt 4 = 2 := by
  rw [show (4 : ℝ) = 2 ^ 2 by norm_num, Real.sqrt_sq (by norm_num : (0:ℝ) ≤ 2)]

lemma sUnit_delta : sUnit.delta rayZ = 4 := by
  simp only [Sphere.delta, Sphere.qa, Sphere.qb, Sphere.qc, sUnit, rayZ,
    Vec3.dot, Vec3.sub_def]
  norm_num

lemma sUnit_root1 : sUnit.root1 rayZ = 3 := by
  rw [Sphere.root1, sUnit_delta, sqrt_four]
  simp only [Sphere.qa, Sphere.qb, sUnit, rayZ, Vec3.dot, Vec3.sub_def]
  norm_num

lemma sUnit_root2 : sUnit.root2 rayZ = 1 := by
  rw [Sphere.root2, sUnit_delta, sqrt_four]
  simp only [Sphere.qa, Sphere.qb, sUnit, rayZ, Vec3.dot, Vec3.sub_def]
  norm_num

/-- The concrete hit record produced by `sUnit.intersect rayZ`. -/
def hitUnit : Hit := ⟨sUnit, ⟨0, 0, -1⟩, ⟨0, 0, -1⟩, 1⟩

lemma sUnit_intersect : sUnit.intersect rayZ = some hitUnit := by
  rw [sUnit.intersect_of_pos_pos rayZ (by rw [sUnit_delta]; norm_num)
    (by rw [sUnit_root1]; norm_num) (by rw [sUnit_root2]; norm_num),
    sUnit_root1, sUnit_root2]
  have hmin : min (3:ℝ) 1 = 1 := by
    rw [min_eq_right]; norm_num
  rw [hmin]
  simp only [hitUnit, Ray.at', rayZ, sUnit, Vec3.smul, Vec3.add_def,
    Vec3.sub_def, Vec3.normalize, Vec3.length, Vec3.dot]
  norm_num

/-- Witness for claim C4 at the concrete sphere `sUnit` and ray
`rayZ`, whose intersection is the hit `hitUnit`. -/
theorem intersect_hit_spec_witness :
    0 < hitUnit.distance ∧
    (hitUnit.distance = sUnit.root1 rayZ ∨ hitUnit.distance = sUnit.root2 rayZ) ∧
    (0 < sUnit.root1 rayZ → hitUnit.distance ≤ sUnit.root1 rayZ) ∧
    (0 < sUnit.root2 rayZ → hitUnit.distance ≤ sUnit.root2 rayZ) ∧
    hitUnit.position = rayZ.at' hitUnit.distance ∧
    hitUnit.normal = Vec3.normalize (hitUnit.position - sUnit.center) :=
  Sphere.intersect_hit_spec sUnit rayZ hitUnit sUnit_intersect

lemma Vec3.dot_self_nonneg (a : Vec3) : 0 ≤ Vec3.dot a a := by
  simp only [Vec3.dot]
  nlinarith [mul_self_nonneg a.x, mul_self_nonneg a.y, mul_self_nonneg a.z]

lemma Vec3.dot_self_pos (a : Vec3) (h : a ≠ ⟨0, 0, 0⟩) : 0 < Vec3.dot a a := by
  rcases a with ⟨x, y, z⟩
  simp only [Vec3.dot]
  rcases lt_or_eq_of_le (show (0:ℝ) ≤ x * x + y * y + z * z by
    nlinarith [mul_self_nonneg x, mul_self_nonneg y, mul_self_nonneg z]) with hlt | heq
  · exact hlt
  · exfalso
    have hx : x = 0 := mul_self_eq_zero.mp (by
      linarith [mul_self_nonneg x, mul_self_nonneg y, mul_self_nonneg z])
    have hy : y = 0 := mul_self_eq_zero.mp (by
      linarith [mul_self_nonneg x, mul_self_nonneg y, mul_self_nonneg z])
    have hz : z = 0 := mul_self_eq_zero.mp (by
      linarith [mul_self_nonneg x, mul_self_nonneg y, mul_self_nonneg z])
    subst hx
    subst hy
    subst hz
    exact h rfl

lemma Sphere.root1_is_root (s : Sphere) (ray : Ray)
    (ha : s.qa ray ≠ 0) (hδ : 0 ≤ s.delta ray) :
    s.qa ray * s.root1 ray ^ 2 + s.qb ray * s.root1 ray + s.qc ray = 0 := by
  have hsq : Real.sqrt (s.delta ray) ^ 2
      = s.qb ray ^ 2 - 4 * s.qa ray * s.qc ray := by
    rw [Real.sq_sqrt hδ]; rfl
  have hkey : s.qa ray * ((-s.qb ray + Real.sqrt (s.delta ray)) / (2 * s.qa ray)) ^ 2
      + s.qb ray * ((-s.qb ray + Real.sqrt (s.delta ray)) / (2 * s.qa ray)) + s.qc ray
      = (Real.sqrt (s.delta ray) ^ 2 - (s.qb ray ^ 2 - 4 * s.qa ray * s.qc ray))
        / (4 * s.qa ray) := by
    field_simp
    linear_combination (8 * s.qa ray ^ 3) * Real.sq_sqrt hδ
  rw [Sphere.root1, hkey, hsq, sub_self, zero_div]

/-- The squared distance from `ray.at t` to the sphere center, written
with the quadratic coefficients of `Sphere.intersect`. -/
lemma Sphere.dot_at_sub_center (s : Sphere) (ray : Ray) (t : ℝ) :
    Vec3.dot (ray.at' t - s.center) (ray.at' t - s.center)
      = s.qa ray * t ^ 2 + s.qb ray * t + s.qc ray + s.radius ^ 2 := by
  simp only [Ray.at', Vec3.dot, Vec3.add_def, Vec3.sub_def, Vec3.smul,
    Sphere.qa, Sphere.qb, Sphere.qc]
  ring

/-- Claim C6: for a sphere of positive radius and a ray whose origin
lies strictly inside it (and whose direction is nonzero, the `Ray`
class invariant), `intersect` returns a hit; the quadratic has
exactly one strictly positive root (`root1 > 0`, `root2 < 0`), the
hit is taken at that root, and its position lies on the sphere
surface — the exit point of the ray. -/
theorem Sphere.intersect_inside_exit (s : Sphere) (ray : Ray)
    (hrad : 0 < s.radius)
    (hdir : ray.direction ≠ ⟨0, 0, 0⟩)
    (hin : Vec3.dot (ray.origin - s.center) (ray.origin - s.center)
      < s.radius ^ 2) :
    s.intersect ray =
      some ⟨s, ray.at' (s.root1 ray),
        Vec3.normalize (ray.at' (s.root1 ray) - s.center), s.root1 ray⟩ ∧
    0 < s.root1 ray ∧ s.root2 ray < 0 ∧
    Vec3.dot (ray.at' (s.root1 ray) - s.center)
        (ray.at' (s.root1 ray) - s.center) = s.radius ^ 2 := by
  have ha : 0 < s.qa ray := Vec3.dot_self_pos _ hdir
  have hc : s.qc ray < 0 := by rw [Sphere.qc]; linarith
  have hδ : 0 < s.delta ray := by
    rw [Sphere.delta]; nlinarith [sq_nonneg (s.qb ray)]
  have hsqrt : |s.qb ray| < Real.sqrt (s.delta ray) := by
    rw [← Real.sqrt_sq_eq_abs]
    refine Real.sqrt_lt_sqrt (sq_nonneg _) ?_
    rw [Sphere.delta]; nlinarith
  obtain ⟨hlb, hub⟩ := abs_lt.mp hsqrt
  have hr1 : 0 < s.root1 ray := by
    rw [Sphere.root1]
    apply div_pos (by linarith) (by linarith)
  have hr2 : s.root2 ray < 0 := by
    rw [Sphere.root2]
    apply div_neg_of_neg_of_pos (by linarith) (by linarith)
  refine ⟨?_, hr1, hr2, ?_⟩
  · exact s.intersect_of_pos_nonpos ray hδ hr1 (not_lt.mpr hr2.le)
  · rw [s.dot_at_sub_center ray]
    have := s.root1_is_root ray (ne_of_gt ha) hδ.le
    linarith

/-- A concrete ray starting at the center of `sUnit`, strictly inside
it. -/
def rayIn : Ray := ⟨⟨0, 0, 0⟩, ⟨0, 0, 1⟩⟩

/-- Witness for claim C6 at the unit sphere and a ray from its
center. -/
theorem intersect_inside_exit_witness :
    (sUnit.intersect rayIn =
      some ⟨sUnit, rayIn.at' (sUnit.root1 rayIn),
        Vec3.normalize (rayIn.at' (sUnit.root1 rayIn) - sUnit.center),
        sUnit.root1 rayIn⟩ ∧
    0 < sUnit.root1 rayIn ∧ sUnit.root2 rayIn < 0 ∧
    Vec3.dot (rayIn.at' (sUnit.root1 rayIn) - sUnit.center)
        (rayIn.at' (sUnit.root1 rayIn) - sUnit.center) = sUnit.radius ^ 2) :=
  Sphere.intersect_inside_exit sUnit rayIn
    (by norm_num [sUnit])
    (by simp [rayIn])
    (by norm_num [sUnit, rayIn, Vec3.dot, Vec3.sub_def])

/-- Claim C7: for distinct light and hit positions and a nonnegative
light intensity (the `PointLight` data-model invariant),
`intensity_at` returns `max(0, intensity * cosTheta / distance²)`
where the direction is `light.position - hit.position`, `distance` is
its length and `cosTheta` is the dot of the normalized direction with
the hit normal; and whenever `cosTheta ≤ 0` the contribution is
exactly `0`, regardless of the distance. -/
theorem PointLight.intensity_at_spec (l : PointLight) (h : Hit)
    (hne : l.position ≠ h.position) (hint : 0 ≤ l.intensity) :
    l.intensity_at h =
      max 0 (l.intensity
        * Vec3.dot (Vec3.normalize (l.position - h.position)) h.normal
        / Vec3.length (l.position - h.position) ^ 2) ∧
    (l.cosTheta h ≤ 0 → l.intensity_at h = 0) := by
  refine ⟨rfl, fun hcos => ?_⟩
  rw [PointLight.intensity_at, max_eq_left]
  apply div_nonpos_of_nonpos_of_nonneg
  · exact mul_nonpos_of_nonneg_of_nonpos hint hcos
  · exact sq_nonneg _

/-- A concrete light of intensity `4` at the origin. -/
def lightO : PointLight := ⟨⟨0, 0, 0⟩, 4⟩

/-- A concrete hit at distance `1` from `lightO`, facing it. -/
def hitA : Hit := ⟨sUnit, ⟨0, 0, 1⟩, ⟨0, 0, -1⟩, 1⟩

/-- A concrete hit at distance `2` from `lightO`, facing it at the
same incidence cosine as `hitA`. -/
def hitB : Hit := ⟨sUnit, ⟨0, 0, 2⟩, ⟨0, 0, -1⟩, 2⟩

/-- A concrete hit facing away from `lightO`. -/
def hitAway : Hit := ⟨sUnit, ⟨0, 0, 1⟩, ⟨0, 0, 1⟩, 1⟩

lemma lightO_dist_hitA : lightO.lightDist hitA = 1 := by
  simp only [PointLight.lightDist, Vec3.length, Vec3.dot, Vec3.sub_def,
    lightO, hitA]
  norm_num

lemma lightO_dist_hitB : lightO.lightDist hitB = 2 := by
  simp only [PointLight.lightDist, Vec3.length, Vec3.dot, Vec3.sub_def,
    lightO, hitB]
  norm_num [sqrt_four]

lemma lightO_cos_hitA : lightO.cosTheta hitA = 1 := by
  simp only [PointLight.cosTheta, Vec3.normalize, Vec3.length, Vec3.dot,
    Vec3.sub_def, Vec3.smul, lightO, hitA]
  norm_num

lemma lightO_cos_hitB : lightO.cosTheta hitB = 1 := by
  simp only [PointLight.cosTheta, Vec3.normalize, Vec3.length, Vec3.dot,
    Vec3.sub_def, Vec3.smul, lightO, hitB]
  norm_num [sqrt_four]

lemma lightO_cos_hitAway : lightO.cosTheta hitAway = -1 := by
  simp only [PointLight.cosTheta, Vec3.normalize, Vec3.length, Vec3.dot,
    Vec3.sub_def, Vec3.smul, lightO, hitAway]
  norm_num

/-- Witness for claim C7, at a light at the origin and a hit facing
away from it. -/
theorem intensity_at_spec_witness :
    lightO.intensity_at hitAway =
      max 0 (lightO.intensity
        * Vec3.dot (Vec3.normalize (lightO.position - hitAway.position))
            hitAway.normal
        / Vec3.length (lightO.position - hitAway.position) ^ 2) ∧
    (lightO.cosTheta hitAway ≤ 0 → lightO.intensity_at hitAway = 0) :=
  PointLight.intensity_at_spec lightO hitAway
    (by simp [lightO, hitAway])
    (by norm_num [lightO])

lemma max_zero_div_four (x : ℝ) : max 0 (x / 4) = max 0 x / 4 := by
  rcases le_total 0 x with hx | hx
  · rw [max_eq_right hx, max_eq_right (by linarith)]
  · rw [max_eq_left hx, max_eq_left (by linarith)]
    norm_num

/-- Claim C8: with the light intensity and the incidence cosine held
fixed, the contribution of `intensity_at` is monotonically
non-increasing in the light-to-hit distance, and doubling the
distance yields exactly one quarter of the contribution. -/
theorem PointLight.intensity_at_inverse_square
    (l1 l2 : PointLight) (h1 h2 : Hit)
    (hint : l2.intensity = l1.intensity)
    (hcos : l2.cosTheta h2 = l1.cosTheta h1) :
    (0 < l1.lightDist h1 → l1.lightDist h1 ≤ l2.lightDist h2 →
      l2.intensity_at h2 ≤ l1.intensity_at h1) ∧
    (l2.lightDist h2 = 2 * l1.lightDist h1 →
      l2.intensity_at h2 = l1.intensity_at h1 / 4) := by
  rw [PointLight.intensity_at, PointLight.intensity_at, hint, hcos]
  constructor
  · intro hd1 hd12
    apply max_le (le_max_left _ _)
    rcases le_total (l1.intensity * l1.cosTheta h1) 0 with hP | hP
    · exact le_trans
        (div_nonpos_of_nonpos_of_nonneg hP (sq_nonneg _)) (le_max_left _ _)
    · refine le_trans ?_ (le_max_right _ _)
      apply div_le_div_of_nonneg_left hP (pow_pos hd1 2)
      exact pow_le_pow_left hd1.le hd12 2
  · intro hd2
    rw [hd2, show (2 * l1.lightDist h1) ^ 2 = l1.lightDist h1 ^ 2 * 4 by ring,
      ← div_div, max_zero_div_four]

/-- Witness for claim C8: the light `lightO` with the hits `hitA`
(distance `1`) and `hitB` (distance `2`, same cosine): doubling the
distance quarters the contribution. -/
theorem intensity_at_inverse_square_witness :
    (0 < lightO.lightDist hitA → lightO.lightDist hitA ≤ lightO.lightDist hitB →
      lightO.intensity_at hitB ≤ lightO.intensity_at hitA) ∧
    (lightO.lightDist hitB = 2 * lightO.lightDist hitA →
      lightO.intensity_at hitB = lightO.intensity_at hitA / 4) :=
  PointLight.intensity_at_inverse_square lightO lightO hitA hitB rfl
    (by rw [lightO_cos_hitA, lightO_cos_hitB])

lemma Scene.closestAux_step_none (ray : Ray) (o : Sphere) (rest : List Sphere)
    (acc : Option Hit) (ho : o.intersect ray = none) :
    Scene.closestAux ray acc (o :: rest) = Scene.closestAux ray acc rest := by
  cases acc with
  | none => simp only [Scene.closestAux]; rw [ho]
  | some ch => simp only [Scene.closestAux]; rw [ho]

lemma Scene.closestAux_step_first (ray : Ray) (o : Sphere) (rest : List Sphere)
    (hit : Hit) (ho : o.intersect ray = some hit) :
    Scene.closestAux ray none (o :: rest) = Scene.closestAux ray (some hit) rest := by
  simp only [Scene.closestAux]; rw [ho]

lemma Scene.closestAux_step_closer (ray : Ray) (o : Sphere) (rest : List Sphere)
    (hit ch : Hit) (ho : o.intersect ray = some hit)
    (hd : hit.distance < ch.distance) :
    Scene.closestAux ray (some ch) (o :: rest)
      = Scene.closestAux ray (some hit) rest := by
  simp only [Scene.closestAux]
  rw [ho]
  show Scene.closestAux ray
    (if hit.distance < ch.distance then some hit else some ch) rest = _
  rw [if_pos hd]

lemma Scene.closestAux_step_keep (ray : Ray) (o : Sphere) (rest : List Sphere)
    (hit ch : Hit) (ho : o.intersect ray = some hit)
    (hd : ¬ hit.distance < ch.distance) :
    Scene.closestAux ray (some ch) (o :: rest)
      = Scene.closestAux ray (some ch) rest := by
  simp only [Scene.closestAux]
  rw [ho]
  show Scene.closestAux ray
    (if hit.distance < ch.distance then some hit else some ch) rest = _
  rw [if_neg hd]

lemma Scene.closestAux_none_iff (ray : Ray) (l : List Sphere) :
    ∀ acc : Option Hit, Scene.closestAux ray acc l = none ↔
      acc = none ∧ ∀ o ∈ l, o.intersect ray = none := by
  induction l with
  | nil => intro acc; simp [Scene.closestAux]
  | cons o rest ih =>
    intro acc
    cases ho : o.intersect ray with
    | none =>
      rw [Scene.closestAux_step_none ray o rest acc ho, ih]
      simp [ho]
    | some hit =>
      cases acc with
      | none =>
        rw [Scene.closestAux_step_first ray o rest hit ho, ih]
        simp [ho]
      | some ch =>
        by_cases hd : hit.distance < ch.distance
        · rw [Scene.closestAux_step_closer ray o rest hit ch ho hd, ih]
          simp [ho]
        · rw [Scene.closestAux_step_keep ray o rest hit ch ho hd, ih]
          simp [ho]

lemma Scene.closestAux_some_spec (ray : Ray) (l : List Sphere) :
    ∀ (acc : Option Hit) (h : Hit), Scene.closestAux ray acc l = some h →
    (acc = some h ∧
      ∀ o ∈ l, ∀ h', o.intersect ray = some h' → h.distance ≤ h'.distance) ∨
    (∃ l1 o l2, l = l1 ++ o :: l2 ∧ o.intersect ray = some h ∧
      (∀ ch, acc = some ch → h.distance < ch.distance) ∧
      (∀ o' ∈ l1, ∀ h', o'.intersect ray = some h' → h.distance < h'.distance) ∧
      (∀ o' ∈ l2, ∀ h', o'.intersect ray = some h' → h.distance ≤ h'.distance)) := by
  induction l with
  | nil =>
    intro acc h hres
    left
    exact ⟨hres, by simp⟩
  | cons o rest ih =>
    intro acc h hres
    cases ho : o.intersect ray with
    | none =>
      rw [Scene.closestAux_step_none ray o rest acc ho] at hres
      rcases ih acc h hres with ⟨hacc, hall⟩ | ⟨l1, ob, l2, hsplit, hob, haccc, h1, h2⟩
      · left
        refine ⟨hacc, fun o' ho' h' hint => ?_⟩
        rcases List.mem_cons.mp ho' with rfl | hmem
        · rw [ho] at hint; exact absurd hint (by simp)
        · exact hall o' hmem h' hint
      · right
        refine ⟨o :: l1, ob, l2, by rw [hsplit]; rfl, hob, haccc,
          fun o' ho' h' hint => ?_, h2⟩
        rcases List.mem_cons.mp ho' with rfl | hmem
        · rw [ho] at hint; exact absurd hint (by simp)
        · exact h1 o' hmem h' hint
    | some hit =>
      cases acc with
      | none =>
        rw [Scene.closestAux_step_first ray o rest hit ho] at hres
        rcases ih (some hit) h hres with ⟨hacc, hall⟩
          | ⟨l1, ob, l2, hsplit, hob, haccc, h1, h2⟩
        · right
          have hhit : hit = h := Option.some.inj hacc
          exact ⟨[], o, rest, rfl, by rw [ho, hhit],
            fun ch hch => Option.noConfusion hch, by simp, hall⟩
        · right
          refine ⟨o :: l1, ob, l2, by rw [hsplit]; rfl, hob,
            fun ch hch => Option.noConfusion hch,
            fun o' ho' h' hint => ?_, h2⟩
          rcases List.mem_cons.mp ho' with rfl | hmem
          · rw [ho] at hint
            obtain rfl := Option.some.inj hint
            exact haccc _ rfl
          · exact h1 o' hmem h' hint
      | some ch =>
        by_cases hd : hit.distance < ch.distance
        · rw [Scene.closestAux_step_closer ray o rest hit ch ho hd] at hres
          rcases ih (some hit) h hres with ⟨hacc, hall⟩
            | ⟨l1, ob, l2, hsplit, hob, haccc, h1, h2⟩
          · right
            have hhit : hit = h := Option.some.inj hacc
            refine ⟨[], o, rest, rfl, by rw [ho, hhit], ?_, by simp, hall⟩
            intro ch' hch'
            obtain rfl : ch = ch' := Option.some.inj hch'
            rw [← hhit]
            exact hd
          · right
            refine ⟨o :: l1, ob, l2, by rw [hsplit]; rfl, hob, ?_,
              fun o' ho' h' hint => ?_, h2⟩
            · intro ch' hch'
              obtain rfl : ch = ch' := Option.some.inj hch'
              exact lt_trans (haccc hit rfl) hd
            · rcases List.mem_cons.mp ho' with rfl | hmem
              · rw [ho] at hint
                obtain rfl := Option.some.inj hint
                exact haccc _ rfl
              · exact h1 o' hmem h' hint
        · rw [Scene.closestAux_step_keep ray o rest hit ch ho hd] at hres
          rcases ih (some ch) h hres with ⟨hacc, hall⟩
            | ⟨l1, ob, l2, hsplit, hob, haccc, h1, h2⟩
          · left
            refine ⟨hacc, fun o' ho' h' hint => ?_⟩
            rcases List.mem_cons.mp ho' with rfl | hmem
            · rw [ho] at hint
              obtain rfl := Option.some.inj hint
              obtain rfl : ch = h := Option.some.inj hacc
              exact not_lt.mp hd
            · exact hall o' hmem h' hint
          · right
            refine ⟨o :: l1, ob, l2, by rw [hsplit]; rfl, hob, haccc,
              fun o' ho' h' hint => ?_, h2⟩
            rcases List.mem_cons.mp ho' with rfl | hmem
            · rw [ho] at hint
              obtain rfl := Option.some.inj hint
              exact lt_of_lt_of_le (haccc ch rfl) (not_lt.mp hd)
            · exact h1 o' hmem h' hint

/-- Claim C5: `Scene.closest` over an empty object collection returns
no hit; when it returns a hit, that hit is produced by an object of
the collection whose recorded distance is minimal among all objects'
intersection results, every strictly earlier object's hit being
strictly farther (the earliest object wins ties, since a later hit
replaces the current one only when strictly smaller); and when it
returns no hit, no object intersects the ray. -/
theorem Scene.closest_spec (sc : Scene) (ray : Ray) :
    (sc.objects = [] → sc.closest ray = none) ∧
    (∀ h, sc.closest ray = some h →
      ∃ l1 o l2, sc.objects = l1 ++ o :: l2 ∧ o.intersect ray = some h ∧
        (∀ o' ∈ l1, ∀ h', o'.intersect ray = some h' →
          h.distance < h'.distance) ∧
        (∀ o' ∈ sc.objects, ∀ h', o'.intersect ray = some h' →
          h.distance ≤ h'.distance)) ∧
    (sc.closest ray = none → ∀ o ∈ sc.objects, o.intersect ray = none) := by
  refine ⟨?_, ?_, ?_⟩
  · intro hobj
    rw [Scene.closest, hobj]
    rfl
  · intro h hres
    rw [Scene.closest] at hres
    rcases Scene.closestAux_some_spec ray sc.objects none h hres with
      ⟨hacc, _⟩ | ⟨l1, o, l2, hsplit, ho, _, h1, h2⟩
    · exact absurd hacc (by simp)
    · refine ⟨l1, o, l2, hsplit, ho, h1, fun o' ho' h' hint => ?_⟩
      rw [hsplit] at ho'
      rcases List.mem_append.mp ho' with hmem | hmem
      · exact (h1 o' hmem h' hint).le
      · rcases List.mem_cons.mp hmem with rfl | hmem
        · rw [ho] at hint
          obtain rfl := Option.some.inj hint
          exact le_refl _
        · exact h2 o' hmem h' hint
  · intro hres
    rw [Scene.closest] at hres
    exact ((Scene.closestAux_none_iff ray sc.objects none).mp hres).2

/-- The empty scene used by the spec's empty-collection property. -/
def emptyScene : Scene := ⟨⟨26, 27, 33⟩, 0.12, [], []⟩

/-- Witness for claim C5 at the empty scene: no objects, no hit. -/
theorem closest_spec_witness : emptyScene.closest rayZ = none :=
  (Scene.closest_spec emptyScene rayZ).1 rfl

lemma Scene.traceStep_eq (sc : Scene) (ch : Hit) (acc : ℝ) (light : PointLight) :
    sc.traceStep ch acc light = acc + sc.shadowContrib ch light := by
  rw [Scene.traceStep, Scene.shadowContrib]
  cases hcl : sc.closest (Ray.make light.position (ch.position - light.position)) with
  | none => simp
  | some lh =>
    by_cases hs : sameObject lh.object ch.object
    · simp [hs]
    · simp [hs]

lemma Scene.foldl_traceStep (sc : Scene) (ch : Hit) (ls : List PointLight) :
    ∀ init : ℝ, ls.foldl (sc.traceStep ch) init
      = init + (ls.map (sc.shadowContrib ch)).sum := by
  induction ls with
  | nil => intro init; simp
  | cons l rest ih =>
    intro init
    rw [List.foldl_cons, Scene.traceStep_eq, ih, List.map_cons, List.sum_cons]
    ring

lemma Scene.trace_of_closest_none (sc : Scene) (ray : Ray)
    (h : sc.closest ray = none) : sc.trace ray = sc.background := by
  rw [Scene.trace, h]

lemma Scene.trace_of_closest_some (sc : Scene) (ray : Ray) (ch : Hit)
    (h : sc.closest ray = some ch) :
    sc.trace ray = Vec3.smul
      (min (sc.ambient_light + (sc.lights.map (sc.shadowContrib ch)).sum) 1)
      ch.object.color := by
  rw [Scene.trace, h]
  show Vec3.smul (min (sc.lights.foldl (sc.traceStep ch) sc.ambient_light) 1)
    ch.object.color = _
  rw [Scene.foldl_traceStep]

lemma Scene.shadowContrib_of_some (sc : Scene) (ch : Hit) (light : PointLight)
    (lh : Hit)
    (hlh : sc.closest (Ray.make light.position (ch.position - light.position))
      = some lh) :
    sc.shadowContrib ch light =
      if sameObject lh.object ch.object then light.intensity_at ch else 0 := by
  rw [Scene.shadowContrib, hlh]

lemma Scene.shadowContrib_of_none (sc : Scene) (ch : Hit) (light : PointLight)
    (hn : sc.closest (Ray.make light.position (ch.position - light.position))
      = none) :
    sc.shadowContrib ch light = 0 := by
  rw [Scene.shadowContrib, hn]

/-- Claim C2: when the camera ray's trace has a closest hit `ch`, the
final intensity is the ambient light plus, for each light, exactly
that light's `intensity_at ch` when the closest hit along the shadow
ray (origin `light.position`, direction
`ch.position - light.position`) exists and is the same object by
identity as `ch.object`, and nothing from that light otherwise. -/
theorem Scene.trace_shadow_spec (sc : Scene) (ray : Ray) (ch : Hit)
    (h : sc.closest ray = some ch) :
    sc.trace ray = Vec3.smul
      (min (sc.ambient_light + (sc.lights.map (sc.shadowContrib ch)).sum) 1)
      ch.object.color ∧
    ∀ light : PointLight,
      (∀ lh, sc.closest (Ray.make light.position (ch.position - light.position))
          = some lh →
        (sameObject lh.object ch.object = true →
          sc.shadowContrib ch light = light.intensity_at ch) ∧
        (sameObject lh.object ch.object = false →
          sc.shadowContrib ch light = 0)) ∧
      (sc.closest (Ray.make light.position (ch.position - light.position))
          = none →
        sc.shadowContrib ch light = 0) := by
  refine ⟨Scene.trace_of_closest_some sc ray ch h, fun light =>
    ⟨fun lh hlh => ⟨fun hs => ?_, fun hs => ?_⟩,
      Scene.shadowContrib_of_none sc ch light⟩⟩
  · rw [Scene.shadowContrib_of_some sc ch light lh hlh, if_pos hs]
  · rw [Scene.shadowContrib_of_some sc ch light lh hlh, if_neg (by simp [hs])]

/-- A one-sphere, one-light scene around `sUnit` and `lightO`. -/
def oneSphereScene : Scene := ⟨⟨26, 27, 33⟩, 0.12, [sUnit], [lightO]⟩

lemma oneSphereScene_closest : oneSphereScene.closest rayZ = some hitUnit := by
  rw [Scene.closest]
  show Scene.closestAux rayZ none [sUnit] = some hitUnit
  rw [Scene.closestAux_step_first rayZ sUnit [] hitUnit sUnit_intersect]
  rfl

/-- Witness for claim C2 at the one-sphere scene, where the camera
ray `rayZ` hits `hitUnit`. -/
theorem trace_shadow_spec_witness :
    oneSphereScene.trace rayZ = Vec3.smul
      (min (oneSphereScene.ambient_light
        + (oneSphereScene.lights.map (oneSphereScene.shadowContrib hitUnit)).sum) 1)
      hitUnit.object.color ∧
    ∀ light : PointLight,
      (∀ lh, oneSphereScene.closest
          (Ray.make light.position (hitUnit.position - light.position))
          = some lh →
        (sameObject lh.object hitUnit.object = true →
          oneSphereScene.shadowContrib hitUnit light = light.intensity_at hitUnit) ∧
        (sameObject lh.object hitUnit.object = false →
          oneSphereScene.shadowContrib hitUnit light = 0)) ∧
      (oneSphereScene.closest
          (Ray.make light.position (hitUnit.position - light.position))
          = none →
        oneSphereScene.shadowContrib hitUnit light = 0) :=
  Scene.trace_shadow_spec oneSphereScene rayZ hitUnit oneSphereScene_closest

lemma Scene.shadowContrib_nonneg (sc : Scene) (ch : Hit) (light : PointLight) :
    0 ≤ sc.shadowContrib ch light := by
  cases hcl : sc.closest (Ray.make light.position (ch.position - light.position)) with
  | none => rw [Scene.shadowContrib_of_none sc ch light hcl]
  | some lh =>
    rw [Scene.shadowContrib_of_some sc ch light lh hcl]
    by_cases hs : sameObject lh.object ch.object
    · rw [if_pos hs]
      exact le_max_left _ _
    · rw [if_neg hs]

lemma mul_clamp_between (m c : ℝ) (h0 : 0 ≤ m) (h1 : m ≤ 1) :
    min 0 c ≤ m * c ∧ m * c ≤ max 0 c := by
  rcases le_total 0 c with hc | hc
  · refine ⟨le_trans (min_le_left _ _) (mul_nonneg h0 hc),
      le_trans ?_ (le_max_right _ _)⟩
    nlinarith
  · refine ⟨le_trans (min_le_right _ _) ?_, le_trans ?_ (le_max_left _ _)⟩
    · nlinarith
    · nlinarith

/-- Claim C1: for every ray, `Scene.trace` returns the scene's
background when `Scene.closest` reports no hit; when a closest hit
exists it returns the hit object's color scaled by
`min(ambient_light + Σ contributing lights, 1)`, and — with
nonnegative ambient light and light intensities — every channel of
the result lies between `0` and the corresponding channel of the hit
object's color. -/
theorem Scene.trace_clamp_bounds (sc : Scene) (ray : Ray)
    (hamb : 0 ≤ sc.ambient_light)
    (hli : ∀ l ∈ sc.lights, 0 ≤ l.intensity) :
    (sc.closest ray = none → sc.trace ray = sc.background) ∧
    (∀ ch, sc.closest ray = some ch →
      sc.trace ray = Vec3.smul
        (min (sc.ambient_light + (sc.lights.map (sc.shadowContrib ch)).sum) 1)
        ch.object.color ∧
      (min 0 ch.object.color.x ≤ (sc.trace ray).x ∧
        (sc.trace ray).x ≤ max 0 ch.object.color.x) ∧
      (min 0 ch.object.color.y ≤ (sc.trace ray).y ∧
        (sc.trace ray).y ≤ max 0 ch.object.color.y) ∧
      (min 0 ch.object.color.z ≤ (sc.trace ray).z ∧
        (sc.trace ray).z ≤ max 0 ch.object.color.z)) := by
  refine ⟨Scene.trace_of_closest_none sc ray, fun ch hch => ?_⟩
  have htr := Scene.trace_of_closest_some sc ray ch hch
  have hsum : 0 ≤ (sc.lights.map (sc.shadowContrib ch)).sum := by
    apply List.sum_nonneg
    intro x hx
    obtain ⟨l, _, rfl⟩ := List.mem_map.mp hx
    exact Scene.shadowContrib_nonneg sc ch l
  set m := min (sc.ambient_light + (sc.lights.map (sc.shadowContrib ch)).sum) 1
    with hm
  have h0 : 0 ≤ m := le_min (by linarith) zero_le_one
  have h1 : m ≤ 1 := min_le_right _ _
  refine ⟨htr, ?_, ?_, ?_⟩ <;> rw [htr]
  · exact mul_clamp_between m ch.object.color.x h0 h1
  · exact mul_clamp_between m ch.object.color.y h0 h1
  · exact mul_clamp_between m ch.object.color.z h0 h1

/-- Witness for claim C1 at the empty scene (nonnegative ambient
light, no lights). -/
theorem trace_clamp_bounds_witness :
    (emptyScene.closest rayZ = none → emptyScene.trace rayZ = emptyScene.background) ∧
    (∀ ch, emptyScene.closest rayZ = some ch →
      emptyScene.trace rayZ = Vec3.smul
        (min (emptyScene.ambient_light
          + (emptyScene.lights.map (emptyScene.shadowContrib ch)).sum) 1)
        ch.object.color ∧
      (min 0 ch.object.color.x ≤ (emptyScene.trace rayZ).x ∧
        (emptyScene.trace rayZ).x ≤ max 0 ch.object.color.x) ∧
      (min 0 ch.object.color.y ≤ (emptyScene.trace rayZ).y ∧
        (emptyScene.trace rayZ).y ≤ max 0 ch.object.color.y) ∧
      (min 0 ch.object.color.z ≤ (emptyScene.trace rayZ).z ∧
        (emptyScene.trace rayZ).z ≤ max 0 ch.object.color.z)) :=
  Scene.trace_clamp_bounds emptyScene rayZ (by norm_num [emptyScene])
    (by simp [emptyScene])

/-- Claim C9: `Camera.get_ray` returns a ray whose origin is the
camera center and whose direction is the normalization of
`front*focal_length + right*(pixelX/width - 0.5)
 + up*(height/width)*(pixelY/height - 0.5)`; it is a pure function of
the stored camera fields and the two pixel coordinates. -/
theorem Camera.get_ray_spec (c : Camera) (j i : ℝ) :
    (c.get_ray j i).origin = c.center ∧
    (c.get_ray j i).direction = Vec3.normalize
      (Vec3.smul c.focal_length c.front
        + Vec3.smul (j / c.width - 0.5) c.right
        + Vec3.smul (c.height / c.width * (i / c.height - 0.5)) c.up) := by
  constructor
  · rfl
  · show Vec3.normalize _ = Vec3.normalize _
    congr 1
    simp only [Vec3.smul, Vec3.add_def, Vec3.mk.injEq]
    refine ⟨by ring, by ring, by ring⟩

/-- A sphere with the same center, radius and color as `sUnit` but a
different object identity. -/
def sTwin : Sphere := ⟨1, ⟨0, 0, 0⟩, 1, ⟨1, 1, 1⟩⟩

/-- Claim C10: every hit returned by `Sphere.intersect` carries the
producing sphere itself in its `object` field, and the `==`
comparison of `Scene.trace` (modelled by `sameObject`, Python object
identity) never conflates two distinct spheres even when their
center, radius and color coincide. -/
theorem Sphere.intersect_object_identity :
    (∀ (s : Sphere) (ray : Ray) (h : Hit),
      s.intersect ray = some h → h.object = s) ∧
    (∀ s1 s2 : Sphere, s1.center = s2.center → s1.radius = s2.radius →
      s1.color = s2.color → s1.oid ≠ s2.oid → sameObject s1 s2 = false) := by
  constructor
  · intro s ray h hh
    by_cases hδ : 0 < s.delta ray
    · by_cases h1 : 0 < s.root1 ray
      · by_cases h2 : 0 < s.root2 ray
        · rw [s.intersect_of_pos_pos ray hδ h1 h2] at hh
          obtain rfl := Option.some.inj hh.symm
          rfl
        · rw [s.intersect_of_pos_nonpos ray hδ h1 h2] at hh
          obtain rfl := Option.some.inj hh.symm
          rfl
      · by_cases h2 : 0 < s.root2 ray
        · rw [s.intersect_of_nonpos_pos ray hδ h1 h2] at hh
          obtain rfl := Option.some.inj hh.symm
          rfl
        · rw [s.intersect_of_nonpos_nonpos ray hδ h1 h2] at hh
          exact absurd hh (by simp)
    · rw [s.intersect_of_delta_nonpos ray hδ] at hh
      exact absurd hh (by simp)
  · intro s1 s2 _ _ _ hoid
    simpa [sameObject] using hoid

/-- Witness for claim C10: the concrete hit of `sUnit` carries
`sUnit` itself, and `sUnit` is never identified with its twin
`sTwin`. -/
theorem intersect_object_identity_witness :
    hitUnit.object = sUnit ∧ sameObject sUnit sTwin = false :=
  ⟨Sphere.intersect_object_identity.1 sUnit rayZ hitUnit sUnit_intersect,
   Sphere.intersect_object_identity.2 sUnit sTwin rfl rfl rfl
     (by norm_num [sUnit, sTwin])⟩
